import Mathlib

/-!
Verification of the core of a KZG powers-of-tau trusted-setup ceremony tool
(BLS12-381): SRS structure verification, SRS update, Schnorr proofs of
knowledge, the chain-of-updates verifier, the Drand binding verifier and the
dual-basis consistency check.

Modelling conventions:
* Bytes are natural numbers (values < 256); byte strings are `List ℕ`.
* The BLS12-381 scalar field is modelled by an abstract field `F` with
  decidable equality; the groups G₁, G₂ and G_T are cyclic of the same prime
  order, so group elements are modelled by their discrete logarithms with
  respect to the fixed generators (an element of `F`), scalar multiplication
  becomes field multiplication, the group identity is `0`, the generator is
  `1`, and the pairing of two elements is the product of their exponents.
* Hash functions that the source takes from libraries (Blake2b-512, SHA-256)
  are implemented concretely from their specifications (RFC 7693, FIPS 180-4).
* Library point-serialization (`to_raw_bytes`) is an abstract codec carried as
  a parameter, together with its contract (fixed width, round-trip).
-/

namespace Midnight

/-! ## Byte-level primitives -/

/-- Addition of two 64-bit words modulo `2^64`. -/
def add64 (a b : ℕ) : ℕ := (a + b) % 2 ^ 64

/-- Bitwise xor of 64-bit words (xor never exceeds the operand width). -/
def xor64 (a b : ℕ) : ℕ := Nat.xor a b

/-- Right rotation of a 64-bit word by `n` bits (`0 < n < 64`). -/
def rotr64 (x n : ℕ) : ℕ := x / 2 ^ n + x % 2 ^ n * 2 ^ (64 - n)

/-- Little-endian serialization of a 64-bit word into 8 bytes. -/
def le8 (w : ℕ) : List ℕ :=
  [w % 256, w / 2 ^ 8 % 256, w / 2 ^ 16 % 256, w / 2 ^ 24 % 256,
   w / 2 ^ 32 % 256, w / 2 ^ 40 % 256, w / 2 ^ 48 % 256, w / 2 ^ 56 % 256]

/-- The 8 little-endian bytes of a `u64` (`u64::to_le_bytes`). -/
def u64le (r : ℕ) : List ℕ := le8 r

/-- Reads the little-endian 64-bit word starting at byte `8*i` of a block. -/
def word64At (block : List ℕ) (i : ℕ) : ℕ :=
  block.getD (8 * i) 0 + block.getD (8 * i + 1) 0 * 2 ^ 8 +
  block.getD (8 * i + 2) 0 * 2 ^ 16 + block.getD (8 * i + 3) 0 * 2 ^ 24 +
  block.getD (8 * i + 4) 0 * 2 ^ 32 + block.getD (8 * i + 5) 0 * 2 ^ 40 +
  block.getD (8 * i + 6) 0 * 2 ^ 48 + block.getD (8 * i + 7) 0 * 2 ^ 56

/-! ## Blake2b-512 (RFC 7693, unkeyed, 64-byte digest) -/

/-- Blake2b initialization vector. -/
def blakeIV : List ℕ :=
  [0x6a09e667f3bcc908, 0xbb67ae8584caa73b, 0x3c6ef372fe94f82b, 0xa54ff53a5f1d36f1,
   0x510e527fade682d1, 0x9b05688c2b3e6c1f, 0x1f83d9abfb41bd6b, 0x5be0cd19137e2179]

/-- Blake2b message schedule permutations. -/
def blakeSigma : List (List ℕ) :=
  [[0, 1, 2, 3, 4, 5, 6, 7, 8, 9, 10, 11, 12, 13, 14, 15],
   [14, 10, 4, 8, 9, 15, 13, 6, 1, 12, 0, 2, 11, 7, 5, 3],
   [11, 8, 12, 0, 5, 2, 15, 13, 10, 14, 3, 6, 7, 1, 9, 4],
   [7, 9, 3, 1, 13, 12, 11, 14, 2, 6, 5, 10, 4, 0, 15, 8],
   [9, 0, 5, 7, 2, 4, 10, 15, 14, 1, 11, 12, 6, 8, 3, 13],
   [2, 12, 6, 10, 0, 11, 8, 3, 4, 13, 7, 5, 15, 14, 1, 9],
   [12, 5, 1, 15, 14, 13, 4, 10, 0, 7, 6, 3, 9, 2, 8, 11],
   [13, 11, 7, 14, 12, 1, 3, 9, 5, 0, 15, 4, 8, 6, 2, 10],
   [6, 15, 14, 9, 11, 3, 0, 8, 12, 2, 13, 7, 1, 4, 10, 5],
   [10, 2, 8, 4, 7, 6, 1, 5, 15, 11, 9, 14, 3, 12, 13, 0]]

/-- The Blake2b mixing function G acting on working vector `v`. -/
def blakeG (v : List ℕ) (a b c d x y : ℕ) : List ℕ :=
  let va := add64 (add64 (v.getD a 0) (v.getD b 0)) x
  let vd := rotr64 (xor64 (v.getD d 0) va) 32
  let vc := add64 (v.getD c 0) vd
  let vb := rotr64 (xor64 (v.getD b 0) vc) 24
  let va2 := add64 (add64 va vb) y
  let vd2 := rotr64 (xor64 vd va2) 16
  let vc2 := add64 vc vd2
  let vb2 := rotr64 (xor64 vb vc2) 63
  ((((v.set a va2).set b vb2).set c vc2).set d vd2)

/-- One Blake2b round: eight G applications with the round's permutation. -/
def blakeRound (m v : List ℕ) (r : ℕ) : List ℕ :=
  let s := blakeSigma.getD (r % 10) []
  let mi := fun i => m.getD (s.getD i 0) 0
  let v1 := blakeG v 0 4 8 12 (mi 0) (mi 1)
  let v2 := blakeG v1 1 5 9 13 (mi 2) (mi 3)
  let v3 := blakeG v2 2 6 10 14 (mi 4) (mi 5)
  let v4 := blakeG v3 3 7 11 15 (mi 6) (mi 7)
  let v5 := blakeG v4 0 5 10 15 (mi 8) (mi 9)
  let v6 := blakeG v5 1 6 11 12 (mi 10) (mi 11)
  let v7 := blakeG v6 2 7 8 13 (mi 12) (mi 13)
  blakeG v7 3 4 9 14 (mi 14) (mi 15)

/-- The Blake2b compression function F on a 128-byte block. `t` is the number
of message bytes hashed so far (including this block), `f` the final flag. -/
def blakeCompress (h : List ℕ) (block : List ℕ) (t : ℕ) (f : Bool) : List ℕ :=
  let m := (List.range 16).map (word64At block)
  let v0 := h ++ blakeIV
  let v1 := v0.set 12 (xor64 (v0.getD 12 0) (t % 2 ^ 64))
  let v2 := v1.set 13 (xor64 (v1.getD 13 0) (t / 2 ^ 64))
  let v3 := if f then v2.set 14 (xor64 (v2.getD 14 0) (2 ^ 64 - 1)) else v2
  let v := (List.range 12).foldl (fun w r => blakeRound m w r) v3
  (List.range 8).map fun i => xor64 (h.getD i 0) (xor64 (v.getD i 0) (v.getD (i + 8) 0))

/-- Processes a message through Blake2b 128 bytes at a time. `count` is the
number of bytes already consumed. -/
def blakeFold (h : List ℕ) (msg : List ℕ) (count : ℕ) : List ℕ :=
  if hlt : 128 < msg.length then
    blakeFold (blakeCompress h (msg.take 128) (count + 128) false) (msg.drop 128) (count + 128)
  else
    blakeCompress h (msg ++ List.replicate (128 - msg.length) 0) (count + msg.length) true
termination_by msg.length
decreasing_by
  simp only [List.length_drop]
  omega

/-- Serializes the eight 64-bit state words into the 64-byte digest. -/
def blakeDigestBytes (h : List ℕ) : List ℕ :=
  le8 (h.getD 0 0) ++ le8 (h.getD 1 0) ++ le8 (h.getD 2 0) ++ le8 (h.getD 3 0) ++
  le8 (h.getD 4 0) ++ le8 (h.getD 5 0) ++ le8 (h.getD 6 0) ++ le8 (h.getD 7 0)

/-- Blake2b-512 of a byte string (unkeyed, full 64-byte output): the
parameter-block word `0x01010040` is xored into the first IV word. -/
def blake2b512 (msg : List ℕ) : List ℕ :=
  let h0 := blakeIV.set 0 (xor64 (blakeIV.getD 0 0) 0x01010040)
  blakeDigestBytes (blakeFold h0 msg 0)

theorem blake2b512_length (msg : List ℕ) : (blake2b512 msg).length = 64 := by
  simp [blake2b512, blakeDigestBytes, le8]

/-! ## SHA-256 (FIPS 180-4), used only to state the spec's commitment variant -/

/-- Addition of 32-bit words modulo `2^32`. -/
def add32 (a b : ℕ) : ℕ := (a + b) % 2 ^ 32

/-- Right rotation of a 32-bit word by `n` bits (`0 < n < 32`). -/
def rotr32 (x n : ℕ) : ℕ := x / 2 ^ n + x % 2 ^ n * 2 ^ (32 - n)

/-- SHA-256 initial hash value (FIPS 180-4, decimal). -/
def shaH0 : List ℕ :=
  [1779033703, 3144134277, 1013904242, 2773480762,
   1359893119, 2600822924, 528734635, 1541459225]

/-- SHA-256 round constants (FIPS 180-4, decimal). -/
def shaK : List ℕ :=
  [1116352408, 1899447441, 3049323471, 3921009573, 961987163,
   1508970993, 2453635748, 2870763221, 3624381080, 310598401,
   607225278, 1426881987, 1925078388, 2162078206, 2614888103,
   3248222580, 3835390401, 4022224774, 264347078, 604807628,
   770255983, 1249150122, 1555081692, 1996064986, 2554220882,
   2821834349, 2952996808, 3210313671, 3336571891, 3584528711,
   113926993, 338241895, 666307205, 773529912, 1294757372,
   1396182291, 1695183700, 1986661051, 2177026350, 2456956037,
   2730485921, 2820302411, 3259730800, 3345764771, 3516065817,
   3600352804, 4094571909, 275423344, 430227734, 506948616,
   659060556, 883997877, 958139571, 1322822218, 1537002063,
   1747873779, 1955562222, 2024104815, 2227730452, 2361852424,
   2428436474, 2756734187, 3204031479, 3329325298]

/-- Big-endian 32-bit word starting at byte `4*i` of a block. -/
def word32At (block : List ℕ) (i : ℕ) : ℕ :=
  block.getD (4 * i) 0 * 2 ^ 24 + block.getD (4 * i + 1) 0 * 2 ^ 16 +
  block.getD (4 * i + 2) 0 * 2 ^ 8 + block.getD (4 * i + 3) 0

/-- Extends the 16 block words into the 64-entry message schedule. -/
def shaExtend (w : List ℕ) : List ℕ :=
  if h : w.length < 64 then
    let t := w.length
    let s0 := xor64 (xor64 (rotr32 (w.getD (t - 15) 0) 7) (rotr32 (w.getD (t - 15) 0) 18))
      (w.getD (t - 15) 0 / 2 ^ 3)
    let s1 := xor64 (xor64 (rotr32 (w.getD (t - 2) 0) 17) (rotr32 (w.getD (t - 2) 0) 19))
      (w.getD (t - 2) 0 / 2 ^ 10)
    shaExtend (w ++ [add32 (add32 (w.getD (t - 16) 0) s0) (add32 (w.getD (t - 7) 0) s1)])
  else w
termination_by 64 - w.length
decreasing_by
  simp only [List.length_append, List.length_cons, List.length_nil]
  omega

/-- One SHA-256 compression step over state `[a,b,c,d,e,f,g,h]`. -/
def shaStep (w : List ℕ) (st : List ℕ) (t : ℕ) : List ℕ :=
  let a := st.getD 0 0
  let b := st.getD 1 0
  let c := st.getD 2 0
  let d := st.getD 3 0
  let e := st.getD 4 0
  let f := st.getD 5 0
  let g := st.getD 6 0
  let hh := st.getD 7 0
  let bigS1 := xor64 (xor64 (rotr32 e 6) (rotr32 e 11)) (rotr32 e 25)
  let ch := xor64 (Nat.land e f) (Nat.land (Nat.xor e (2 ^ 32 - 1)) g)
  let t1 := add32 (add32 (add32 hh bigS1) (add32 ch (shaK.getD t 0))) (w.getD t 0)
  let bigS0 := xor64 (xor64 (rotr32 a 2) (rotr32 a 13)) (rotr32 a 22)
  let maj := xor64 (xor64 (Nat.land a b) (Nat.land a c)) (Nat.land b c)
  let t2 := add32 bigS0 maj
  [add32 t1 t2, a, b, c, add32 d t1, e, f, g]

/-- SHA-256 compression of one 64-byte block into the running hash. -/
def shaCompress (h : List ℕ) (block : List ℕ) : List ℕ :=
  let w := shaExtend ((List.range 16).map (word32At block))
  let st := (List.range 64).foldl (shaStep w) h
  (List.range 8).map fun i => add32 (h.getD i 0) (st.getD i 0)

/-- Splits a byte string into 64-byte blocks. -/
def chunks64 (l : List ℕ) : List (List ℕ) :=
  if hne : l = [] then [] else l.take 64 :: chunks64 (l.drop 64)
termination_by l.length
decreasing_by
  simp only [List.length_drop]
  have : l.length ≠ 0 := fun h => hne (List.eq_nil_of_length_eq_zero h)
  omega

/-- SHA-256 padding: `0x80`, zeros, then the 64-bit big-endian bit length. -/
def shaPad (msg : List ℕ) : List ℕ :=
  let k := (64 + 56 - (msg.length + 1) % 64) % 64
  let bits := 8 * msg.length
  msg ++ [0x80] ++ List.replicate k 0 ++
    [bits / 2 ^ 56 % 256, bits / 2 ^ 48 % 256, bits / 2 ^ 40 % 256, bits / 2 ^ 32 % 256,
     bits / 2 ^ 24 % 256, bits / 2 ^ 16 % 256, bits / 2 ^ 8 % 256, bits % 256]

/-- Big-endian serialization of a 32-bit word into 4 bytes. -/
def be4 (w : ℕ) : List ℕ := [w / 2 ^ 24 % 256, w / 2 ^ 16 % 256, w / 2 ^ 8 % 256, w % 256]

/-- Serializes the eight 32-bit state words into the 32-byte digest. -/
def shaDigestBytes (h : List ℕ) : List ℕ :=
  be4 (h.getD 0 0) ++ be4 (h.getD 1 0) ++ be4 (h.getD 2 0) ++ be4 (h.getD 3 0) ++
  be4 (h.getD 4 0) ++ be4 (h.getD 5 0) ++ be4 (h.getD 6 0) ++ be4 (h.getD 7 0)

/-- SHA-256 of a byte string. -/
def sha256 (msg : List ℕ) : List ℕ :=
  shaDigestBytes ((chunks64 (shaPad msg)).foldl shaCompress shaH0)

theorem sha256_length (msg : List ℕ) : (sha256 msg).length = 32 := by
  simp [sha256, shaDigestBytes, be4]

/-! ## Drand commitment verification (`verify_commitment` in the verifier) -/

/-- Commitment recomputation and comparison as the verifier performs it:
Blake2b-512 over the 8 little-endian bytes of the round followed by the salt,
compared with the supplied commitment; `false` models `exit(1)`. -/
def verifyCommitment (round : ℕ) (salt commitment : List ℕ) : Bool :=
  decide (blake2b512 (u64le round ++ salt) = commitment)

/-- Modelled from the spec: the SHA-256 commitment variant the spec describes,
`SHA-256(round_LE_16bytes ++ salt)` with the 8 little-endian round bytes
zero-padded to 16 bytes.  This definition follows the spec's words and exists
only to be compared with the verifier's actual recomputation. -/
def specSha256Commitment (round : ℕ) (salt : List ℕ) : List ℕ :=
  sha256 ((u64le round ++ List.replicate 8 0) ++ salt)

theorem specSha256Commitment_length (round : ℕ) (salt : List ℕ) :
    (specSha256Commitment round salt).length = 32 := sha256_length _

/-- C1 counterexample.  The claim says the verify phase recomputes the
commitment as SHA-256 over the 8 little-endian bytes of the round zero-padded
to 16 bytes followed by the salt, and fails exactly when the supplied
commitment differs from that recomputation; so for round 0 and a 16-byte zero
salt, supplying exactly that SHA-256 value should make the verifier accept.
It does not: the verifier recomputes a Blake2b-512 digest (64 bytes, over the
unpadded 8-byte round), which can never equal the 32-byte SHA-256 value. -/
theorem c1_sha256_commitment_counterexample :
    verifyCommitment 0 (List.replicate 16 0)
      (specSha256Commitment 0 (List.replicate 16 0)) = false := by
  apply decide_eq_false
  intro heq
  have hlen := congrArg List.length heq
  rw [blake2b512_length, specSha256Commitment_length] at hlen
  exact absurd hlen (by norm_num)

/-- C1 amended.  The commitment the verify phase recomputes and checks is
Blake2b-512 over the 8 little-endian bytes of the round (not padded to 16
bytes) concatenated with the salt, a 64-byte digest; the verifier exits with
failure exactly when the supplied commitment differs from this recomputation. -/
theorem c1_commitment_is_blake2b (round : ℕ) (salt commitment : List ℕ) :
    (verifyCommitment round salt commitment = true ↔
      commitment = blake2b512 (u64le round ++ salt))
    ∧ (u64le round).length = 8
    ∧ (blake2b512 (u64le round ++ salt)).length = 64 := by
  refine ⟨?_, by simp [u64le, le8], blake2b512_length _⟩
  simp only [verifyCommitment, decide_eq_true_eq]
  exact eq_comm

/-! ## The ceremony data model

`P` is the type of G₁ points, `Q` of G₂ points, `S` of scalars.  The protocol
sections instantiate all of them with the scalar field `F` (discrete-log
model); the serialization section keeps the point types abstract. -/

/-- A Schnorr proof `(a, z)`: commitment point and response scalar. -/
structure SchnorrProofS (P S : Type) where
  a : P
  z : S
deriving DecidableEq

/-- An update proof: the G₁ τ-point before (`g`) and after (`h`) the update,
with a Schnorr proof of knowledge of the discrete log of `h` in base `g`. -/
structure UpdateProofS (P S : Type) where
  g : P
  h : P
  π : SchnorrProofS P S
deriving DecidableEq

/-- The SRS: the list of G₁ powers of τ and the two G₂ points. -/
structure SRS (P Q : Type) where
  g1s : List P
  g2s : Q × Q
deriving DecidableEq

/-- An extended SRS: monomial-basis and Lagrange-basis G₁ points, G₂ points,
and the log₂ of the size. -/
structure ExtendedSRS (P Q : Type) where
  g1sCoeff : List P
  g1sLagrange : List P
  g2s : Q × Q
  k : ℕ
deriving DecidableEq

section Protocol

variable {F : Type} [Field F] [DecidableEq F]

/-- The `n` successive powers of a scalar: `1, s, s², …, s^(n-1)`. -/
def powers (s : F) (n : ℕ) : List F :=
  (List.range n).map fun i => s ^ i

/-- Multi-scalar multiplication `Σ coeffs[i] · bases[i]` (`msm_best`), in the
discrete-log model. -/
def msm (coeffs bases : List F) : F :=
  (List.zipWith (fun c b => c * b) coeffs bases).sum

/-- The pairing in the discrete-log model: `e(aG₁, bG₂) = gT^(a·b)`, so on
exponents it is multiplication. -/
def pairing (p q : F) : F := p * q

theorem powers_length (s : F) (n : ℕ) : (powers s n).length = n := by
  simp [powers]

theorem powers_getD (s : F) (n i : ℕ) (h : i < n) : (powers s n).getD i 0 = s ^ i := by
  rw [powers, List.getD_eq_getElem _ _ (by simpa using h)]
  simp

theorem msm_eq_sum (c b : List F) :
    msm c b = ∑ i ∈ Finset.range (min c.length b.length), c.getD i 0 * b.getD i 0 := by
  induction c generalizing b with
  | nil => simp [msm]
  | cons x xs ih =>
    cases b with
    | nil => simp [msm]
    | cons y ys =>
      rw [msm, List.zipWith_cons_cons, List.sum_cons, ← msm]
      have hmin : min (x :: xs).length (y :: ys).length = min xs.length ys.length + 1 := by
        simp only [List.length_cons]
        omega
      rw [hmin, Finset.sum_range_succ']
      simp only [List.getD_cons_succ, List.getD_cons_zero]
      rw [ih ys]
      ring

theorem getD_zipWith (l1 l2 : List F) (i : ℕ) (h1 : i < l1.length) (h2 : i < l2.length) :
    (List.zipWith (fun a b => a * b) l1 l2).getD i 0 = l1.getD i 0 * l2.getD i 0 := by
  rw [List.getD_eq_getElem _ _ (by simp; omega), List.getD_eq_getElem _ _ h1,
    List.getD_eq_getElem _ _ h2]
  simp

/-! ## Schnorr proof of knowledge (C4 in the spec's component list)

The Fiat–Shamir challenge hashes the raw uncompressed serializations of
`g, h, a` (in that order) with Blake2b-512 and wide-reduces the digest modulo
the group order.  The raw point serialization (`to_raw_bytes`) and the wide
reduction (`Scalar::from_uniform_bytes`) come from the curve library; they are
carried as parameters `raw` and `reduceWide`. -/

variable (raw : F → List ℕ) (reduceWide : List ℕ → F)

/-- Hash of a list of points: Blake2b-512 over the concatenation of their raw
serializations (`hash_points`). -/
def hashPoints (points : List F) : List ℕ :=
  blake2b512 ((points.map raw).flatten)

/-- The Fiat–Shamir challenge `e = reduce(Blake2b-512(raw g ‖ raw h ‖ raw a))`. -/
def fsChallenge (g h a : F) : F :=
  reduceWide (hashPoints raw [g, h, a])

/-- Schnorr prover: `a = g·r`, `e = FS(g, h, a)`, `z = r + x·e`.  The nonce `r`
(sampled from the OS RNG in the source) is a parameter. -/
def schnorrProve (g h x r : F) : SchnorrProofS F F :=
  let a := g * r
  let e := fsChallenge raw reduceWide g h a
  ⟨a, r + x * e⟩

/-- Schnorr verifier: recompute `e` and accept iff `g·z = h·e + a`;
`false` models the panic. -/
def schnorrVerify (g h : F) (π : SchnorrProofS F F) : Bool :=
  let e := fsChallenge raw reduceWide g h π.a
  decide (g * π.z = h * e + π.a)

/-- Creates an update proof from the old and new τ-points. -/
def updateProofCreate (g h : F) (x r : F) : UpdateProofS F F :=
  ⟨g, h, schnorrProve raw reduceWide g h x r⟩

/-- Verifies an update proof against its own endpoints. -/
def updateProofVerify (p : UpdateProofS F F) : Bool :=
  schnorrVerify raw reduceWide p.g p.h p.π

/-- C3.  For every choice of the Fiat–Shamir components (`raw` serialization
and wide reduction, hence for the Blake2b-512-based challenge of the source),
every statement `h = g·x` and every internal nonce `r`, the proof produced by
`prove` satisfies the verification equation `g·z = h·e + a` with `e` the
challenge recomputed on `(g, h, a)` in that order, so `verify` accepts. -/
theorem c3_schnorr_prove_verifies (g x r h : F) (hgh : h = g * x) :
    schnorrVerify raw reduceWide g h (schnorrProve raw reduceWide g h x r) = true
    ∧ g * (schnorrProve raw reduceWide g h x r).z =
        h * fsChallenge raw reduceWide g h (schnorrProve raw reduceWide g h x r).a +
          (schnorrProve raw reduceWide g h x r).a := by
  subst hgh
  constructor
  · simp only [schnorrVerify, schnorrProve, decide_eq_true_eq]
    ring
  · simp only [schnorrProve]
    ring

instance fact13 : Fact (Nat.Prime 13) := ⟨by norm_num⟩

/-- C3 witness at a concrete instance over `ZMod 13`. -/
theorem c3_schnorr_prove_verifies_witness :
    (6 : ZMod 13) = 2 * 3
    ∧ (schnorrVerify (fun _ => []) (fun _ => 0) 2 6
        (schnorrProve (F := ZMod 13) (fun _ => []) (fun _ => 0) 2 6 3 5) = true
      ∧ (2 : ZMod 13) * (schnorrProve (F := ZMod 13) (fun _ => []) (fun _ => 0) 2 6 3 5).z =
          6 * fsChallenge (fun _ => []) (fun _ => 0) 2 6
            (schnorrProve (F := ZMod 13) (fun _ => []) (fun _ => 0) 2 6 3 5).a +
            (schnorrProve (F := ZMod 13) (fun _ => []) (fun _ => 0) 2 6 3 5).a) :=
  ⟨by decide, c3_schnorr_prove_verifies (fun _ => []) (fun _ => 0) 2 3 5 6 (by decide)⟩

/-! ## SRS update (`SRS::update`) -/

/-- Updates the SRS with toxic waste `nu`: every `g1s[i]` is scaled by
`nu^i` (zip with `powers nu n`), `g2s[1]` is scaled by `nu`, and an update
proof is created from the old and new `g1s[1]`.  `r` is the Schnorr nonce. -/
def srsUpdate (r : F) (srs : SRS F F) (nu : F) : SRS F F × UpdateProofS F F :=
  let n := srs.g1s.length
  let oldG1Point := srs.g1s.getD 1 0
  let g1s' := List.zipWith (fun point power => point * power) srs.g1s (powers nu n)
  let g2s' := (srs.g2s.1, srs.g2s.2 * nu)
  (⟨g1s', g2s'⟩, updateProofCreate raw reduceWide oldG1Point (g1s'.getD 1 0) nu r)

/-- C2.  For an SRS with at least two G₁ points and a nonzero scalar `ν`,
`update` scales `g1s[i]` by `ν^i` for every index, scales `g2s[1]` by `ν`,
leaves `g2s[0]` unchanged, and returns a proof whose `g` is the pre-update
`g1s[1]` and whose `h` is the post-update `g1s[1] = old g1s[1] · ν`. -/
theorem c2_update_correct (r : F) (srs : SRS F F) (nu : F) (hnu : nu ≠ 0)
    (hlen : 2 ≤ srs.g1s.length) :
    (srsUpdate raw reduceWide r srs nu).1.g1s.length = srs.g1s.length
    ∧ (∀ i < srs.g1s.length,
        (srsUpdate raw reduceWide r srs nu).1.g1s.getD i 0 = srs.g1s.getD i 0 * nu ^ i)
    ∧ (srsUpdate raw reduceWide r srs nu).1.g2s.2 = srs.g2s.2 * nu
    ∧ (srsUpdate raw reduceWide r srs nu).1.g2s.1 = srs.g2s.1
    ∧ (srsUpdate raw reduceWide r srs nu).2.g = srs.g1s.getD 1 0
    ∧ (srsUpdate raw reduceWide r srs nu).2.h = (srsUpdate raw reduceWide r srs nu).1.g1s.getD 1 0
    ∧ (srsUpdate raw reduceWide r srs nu).1.g1s.getD 1 0 = srs.g1s.getD 1 0 * nu := by
  have hlen' : (srsUpdate raw reduceWide r srs nu).1.g1s.length = srs.g1s.length := by
    simp [srsUpdate, powers_length]
  have hgetD : ∀ i < srs.g1s.length,
      (srsUpdate raw reduceWide r srs nu).1.g1s.getD i 0 = srs.g1s.getD i 0 * nu ^ i := by
    intro i hi
    show (List.zipWith (fun point power => point * power) srs.g1s
      (powers nu srs.g1s.length)).getD i 0 = _
    rw [getD_zipWith _ _ _ hi (by rw [powers_length]; exact hi), powers_getD _ _ _ hi]
  refine ⟨hlen', hgetD, by simp [srsUpdate], by simp [srsUpdate], rfl, rfl, ?_⟩
  have := hgetD 1 (by omega)
  rw [this, pow_one]

/-- C2 witness at a concrete instance over `ZMod 13`. -/
theorem c2_update_correct_witness :
    ((3 : ZMod 13) ≠ 0 ∧ 2 ≤ (SRS.mk [1, 2, 4] ((1 : ZMod 13), 2)).g1s.length)
    ∧ ((srsUpdate (fun _ => []) (fun _ => 0) 1 (SRS.mk [1, 2, 4] ((1 : ZMod 13), 2)) 3).1.g1s.length
          = (SRS.mk [1, 2, 4] ((1 : ZMod 13), 2)).g1s.length
      ∧ (∀ i < (SRS.mk [1, 2, 4] ((1 : ZMod 13), 2)).g1s.length,
          (srsUpdate (fun _ => []) (fun _ => 0) 1 (SRS.mk [1, 2, 4] ((1 : ZMod 13), 2)) 3).1.g1s.getD i 0
            = (SRS.mk [1, 2, 4] ((1 : ZMod 13), 2)).g1s.getD i 0 * 3 ^ i)
      ∧ (srsUpdate (fun _ => []) (fun _ => 0) 1 (SRS.mk [1, 2, 4] ((1 : ZMod 13), 2)) 3).1.g2s.2
          = (SRS.mk [1, 2, 4] ((1 : ZMod 13), 2)).g2s.2 * 3
      ∧ (srsUpdate (fun _ => []) (fun _ => 0) 1 (SRS.mk [1, 2, 4] ((1 : ZMod 13), 2)) 3).1.g2s.1
          = (SRS.mk [1, 2, 4] ((1 : ZMod 13), 2)).g2s.1
      ∧ (srsUpdate (fun _ => []) (fun _ => 0) 1 (SRS.mk [1, 2, 4] ((1 : ZMod 13), 2)) 3).2.g
          = (SRS.mk [1, 2, 4] ((1 : ZMod 13), 2)).g1s.getD 1 0
      ∧ (srsUpdate (fun _ => []) (fun _ => 0) 1 (SRS.mk [1, 2, 4] ((1 : ZMod 13), 2)) 3).2.h
          = (srsUpdate (fun _ => []) (fun _ => 0) 1 (SRS.mk [1, 2, 4] ((1 : ZMod 13), 2)) 3).1.g1s.getD 1 0
      ∧ (srsUpdate (fun _ => []) (fun _ => 0) 1 (SRS.mk [1, 2, 4] ((1 : ZMod 13), 2)) 3).1.g1s.getD 1 0
          = (SRS.mk [1, 2, 4] ((1 : ZMod 13), 2)).g1s.getD 1 0 * 3) :=
  ⟨⟨by decide, by decide⟩,
    c2_update_correct (fun _ => []) (fun _ => 0) 1 (SRS.mk [1, 2, 4] ((1 : ZMod 13), 2)) 3
      (by decide) (by decide)⟩

/-! ## SRS structural verification (`SRS::verify_structure`)

The source performs the asserts in this order: all G₁ points nonzero,
`g1s[0]` is the G₁ generator, `g2s[0]` is the G₂ generator, `g2s[1]` is not
the identity, `g2s[1]` differs from `g2s[0]`, and finally the batched pairing
check with a random scalar `ρ` (a parameter here). -/

/-- First assert: no G₁ point is the identity (`0` in the dlog model). -/
def checkG1sNonzero (srs : SRS F F) : Bool :=
  srs.g1s.all fun p => decide (p ≠ 0)

/-- Second assert: `g1s[0]` is the G₁ generator (`1` in the dlog model). -/
def checkG1Gen (srs : SRS F F) : Bool :=
  decide (srs.g1s.getD 0 0 = 1)

/-- Third assert: `g2s[0]` is the G₂ generator. -/
def checkG2Gen (srs : SRS F F) : Bool :=
  decide (srs.g2s.1 = 1)

/-- Fourth assert: `g2s[1]` is not the identity. -/
def checkG2Nonzero (srs : SRS F F) : Bool :=
  decide (srs.g2s.2 ≠ 0)

/-- Fifth assert: `g2s[1]` differs from `g2s[0]`. -/
def checkG2NotGen (srs : SRS F F) : Bool :=
  decide (srs.g2s.2 ≠ srs.g2s.1)

/-- The batched pairing check: with `rp = (ρ^0, …, ρ^(N-2))`,
`L = msm rp g1s[0..N-1]`, `R = msm rp g1s[1..]`, assert
`e(L, g2s[1]) = e(R, g2s[0])`. -/
def pairingCheck (srs : SRS F F) (rho : F) : Bool :=
  let rp := powers rho (srs.g1s.length - 1)
  let batchedLhsG1 := msm rp (srs.g1s.take (srs.g1s.length - 1))
  let batchedRhsG1 := msm rp (srs.g1s.drop 1)
  decide (pairing batchedLhsG1 srs.g2s.2 = pairing batchedRhsG1 srs.g2s.1)

/-- Verifies the SRS structure; the deterministic asserts run in source order
before the pairing check.  `rho` is the randomly sampled batching scalar. -/
def verifyStructure (srs : SRS F F) (rho : F) : Bool :=
  checkG1sNonzero srs && checkG1Gen srs && checkG2Gen srs &&
    checkG2Nonzero srs && checkG2NotGen srs && pairingCheck srs rho

theorem getD_take (l : List F) (k i : ℕ) (h : i < k) :
    (l.take k).getD i 0 = l.getD i 0 := by
  by_cases hi : i < l.length
  · rw [List.getD_eq_getElem _ _ (by simp; omega), List.getD_eq_getElem _ _ hi]
    simp
  · rw [List.getD_eq_default _ _ (by simp; omega), List.getD_eq_default _ _ (by omega)]

theorem getD_drop (l : List F) (k i : ℕ) :
    (l.drop k).getD i 0 = l.getD (k + i) 0 := by
  by_cases hi : k + i < l.length
  · rw [List.getD_eq_getElem _ _ (by simp; omega), List.getD_eq_getElem _ _ hi]
    simp
  · rw [List.getD_eq_default _ _ (by simp; omega), List.getD_eq_default _ _ (by omega)]

/-- C4.  For a nonempty SRS and any batching scalar `ρ ∈ F*`, the structure
verifier accepts exactly when the deterministic asserts hold and the single
batched pairing equation `e(Σ ρ^i·g1s[i], g2s[1]) = e(Σ ρ^i·g1s[i+1], g2s[0])`
holds, where both multi-scalar multiplications range over the powers
`ρ^0, …, ρ^(N-2)`; its failure is fatal (the verifier returns `false`). -/
theorem c4_verify_structure_pairing (srs : SRS F F) (rho : F) (_hrho : rho ≠ 0)
    (hne : 1 ≤ srs.g1s.length) :
    verifyStructure srs rho = true ↔
      ((∀ p ∈ srs.g1s, p ≠ 0)
        ∧ srs.g1s.getD 0 0 = 1
        ∧ srs.g2s.1 = 1
        ∧ srs.g2s.2 ≠ 0
        ∧ srs.g2s.2 ≠ srs.g2s.1
        ∧ pairing (∑ i ∈ Finset.range (srs.g1s.length - 1), rho ^ i * srs.g1s.getD i 0)
            srs.g2s.2 =
          pairing (∑ i ∈ Finset.range (srs.g1s.length - 1), rho ^ i * srs.g1s.getD (i + 1) 0)
            srs.g2s.1) := by
  have hL : msm (powers rho (srs.g1s.length - 1)) (srs.g1s.take (srs.g1s.length - 1)) =
      ∑ i ∈ Finset.range (srs.g1s.length - 1), rho ^ i * srs.g1s.getD i 0 := by
    rw [msm_eq_sum, powers_length, List.length_take]
    have hm : min (srs.g1s.length - 1) (min (srs.g1s.length - 1) srs.g1s.length) =
        srs.g1s.length - 1 := by omega
    rw [hm]
    refine Finset.sum_congr rfl fun i hi => ?_
    rw [Finset.mem_range] at hi
    rw [powers_getD _ _ _ hi, getD_take _ _ _ hi]
  have hR : msm (powers rho (srs.g1s.length - 1)) (srs.g1s.drop 1) =
      ∑ i ∈ Finset.range (srs.g1s.length - 1), rho ^ i * srs.g1s.getD (i + 1) 0 := by
    rw [msm_eq_sum, powers_length, List.length_drop]
    have hm : min (srs.g1s.length - 1) (srs.g1s.length - 1) = srs.g1s.length - 1 := by omega
    rw [hm]
    refine Finset.sum_congr rfl fun i hi => ?_
    rw [Finset.mem_range] at hi
    rw [powers_getD _ _ _ hi, getD_drop, Nat.add_comm 1 i]
  simp only [verifyStructure, Bool.and_eq_true, checkG1sNonzero, checkG1Gen, checkG2Gen,
    checkG2Nonzero, checkG2NotGen, pairingCheck, List.all_eq_true, decide_eq_true_eq, hL, hR]
  tauto

/-- A concrete two-element SRS over `ZMod 13` (τ = 5). -/
def srsW4 : SRS (ZMod 13) (ZMod 13) := ⟨[1, 5], (1, 5)⟩

/-- C4 witness at a concrete instance over `ZMod 13`. -/
theorem c4_verify_structure_pairing_witness :
    ((2 : ZMod 13) ≠ 0 ∧ 1 ≤ srsW4.g1s.length)
    ∧ (verifyStructure srsW4 2 = true ↔
        ((∀ p ∈ srsW4.g1s, p ≠ 0)
          ∧ srsW4.g1s.getD 0 0 = 1
          ∧ srsW4.g2s.1 = 1
          ∧ srsW4.g2s.2 ≠ 0
          ∧ srsW4.g2s.2 ≠ srsW4.g2s.1
          ∧ pairing (∑ i ∈ Finset.range (srsW4.g1s.length - 1),
                (2 : ZMod 13) ^ i * srsW4.g1s.getD i 0) srsW4.g2s.2 =
            pairing (∑ i ∈ Finset.range (srsW4.g1s.length - 1),
                (2 : ZMod 13) ^ i * srsW4.g1s.getD (i + 1) 0) srsW4.g2s.1)) :=
  ⟨⟨by decide, by decide⟩,
    c4_verify_structure_pairing srsW4 2 (by decide) (by decide)⟩

/-! ## Failure of `verify_structure` on mutated SRSs (C6)

A structurally valid SRS has `g1s = (1, τ, τ², …, τ^(N-1))` and
`g2s = (1, τ)` with `τ ∉ {0, 1}` (in the discrete-log model). -/

theorem mut4_getD (tau : F) (N i : ℕ) (hi : i < N) :
    ((powers tau N).set 1 (1 : F)).getD i 0 = if i = 1 then 1 else tau ^ i := by
  have hlen : i < ((powers tau N).set 1 (1 : F)).length := by
    rw [List.length_set, powers_length]
    exact hi
  rw [List.getD_eq_getElem _ _ hlen]
  by_cases h1 : i = 1
  · subst h1
    simp [List.getElem_set_self _]
  · rw [List.getElem_set_ne (fun h => h1 h.symm) _]
    rw [if_neg h1, ← powers_getD tau N i hi, List.getD_eq_getElem _ _ (by rwa [powers_length])]

/-- C6.  For every structurally valid SRS (of size `N ≥ 2`, secret `τ ∉ {0,1}`):
replacing any `g1s[i]` by the identity makes the first deterministic assert
(all G₁ points nonzero) fail, and `verify_structure` fails for every batching
scalar; setting `g2s[1]` to the identity makes its deterministic assert fail,
and `verify_structure` fails for every batching scalar; likewise for
`g2s[1] = g2s[0]`.  These three asserts precede the pairing check in
`verify_structure`.  Setting `g1s[1] = g1s[0]` (the generator) makes the
batched pairing check, and hence `verify_structure`, fail for every batching
scalar `ρ` outside the single bad value with `ρ·τ = 1` (the check is
probabilistic: `ρ` is sampled at random). -/
theorem c6_mutations_fail (tau : F) (N : ℕ) (hN : 2 ≤ N) (_htau0 : tau ≠ 0)
    (htau1 : tau ≠ 1) :
    (∀ i < N, checkG1sNonzero (SRS.mk ((powers tau N).set i 0) ((1 : F), tau)) = false
      ∧ ∀ rho : F, verifyStructure (SRS.mk ((powers tau N).set i 0) ((1 : F), tau)) rho = false)
    ∧ (checkG2Nonzero (SRS.mk (powers tau N) ((1 : F), (0 : F))) = false
      ∧ ∀ rho : F, verifyStructure (SRS.mk (powers tau N) ((1 : F), (0 : F))) rho = false)
    ∧ (checkG2NotGen (SRS.mk (powers tau N) ((1 : F), (1 : F))) = false
      ∧ ∀ rho : F, verifyStructure (SRS.mk (powers tau N) ((1 : F), (1 : F))) rho = false)
    ∧ (∀ rho : F, rho * tau ≠ 1 →
        verifyStructure (SRS.mk ((powers tau N).set 1 1) ((1 : F), tau)) rho = false) := by
  refine ⟨?_, ?_, ?_, ?_⟩
  · intro i hi
    have hmem : (0 : F) ∈ (powers tau N).set i 0 := by
      have hlen : i < ((powers tau N).set i 0).length := by
        rw [List.length_set, powers_length]
        exact hi
      have hget := List.getElem_mem hlen
      rwa [List.getElem_set_self _] at hget
    have hfail : checkG1sNonzero (SRS.mk ((powers tau N).set i 0) ((1 : F), tau)) = false := by
      apply List.all_eq_false.mpr
      exact ⟨0, hmem, by simp⟩
    exact ⟨hfail, fun rho => by unfold verifyStructure; rw [hfail]; simp⟩
  · have hfail : checkG2Nonzero (SRS.mk (powers tau N) ((1 : F), (0 : F))) = false := by
      simp [checkG2Nonzero]
    exact ⟨hfail, fun rho => by unfold verifyStructure; rw [hfail]; simp⟩
  · have hfail : checkG2NotGen (SRS.mk (powers tau N) ((1 : F), (1 : F))) = false := by
      simp [checkG2NotGen]
    exact ⟨hfail, fun rho => by unfold verifyStructure; rw [hfail]; simp⟩
  · intro rho hrt
    have hpc : pairingCheck (SRS.mk ((powers tau N).set 1 1) ((1 : F), tau)) rho = false := by
      unfold pairingCheck
      apply decide_eq_false
      intro heq
      set b : List F := (powers tau N).set 1 1 with hb
      have hblen : b.length = N := by rw [hb, List.length_set, powers_length]
      have hL : msm (powers rho (b.length - 1)) (b.take (b.length - 1)) =
          ∑ i ∈ Finset.range (N - 1), rho ^ i * b.getD i 0 := by
        rw [msm_eq_sum, powers_length, List.length_take, hblen]
        have hm : min (N - 1) (min (N - 1) N) = N - 1 := by omega
        rw [hm]
        refine Finset.sum_congr rfl fun i hi => ?_
        rw [Finset.mem_range] at hi
        rw [powers_getD _ _ _ hi, getD_take _ _ _ hi]
      have hR : msm (powers rho (b.length - 1)) (b.drop 1) =
          ∑ i ∈ Finset.range (N - 1), rho ^ i * b.getD (i + 1) 0 := by
        rw [msm_eq_sum, powers_length, List.length_drop, hblen]
        have hm : min (N - 1) (N - 1) = N - 1 := by omega
        rw [hm]
        refine Finset.sum_congr rfl fun i hi => ?_
        rw [Finset.mem_range] at hi
        rw [powers_getD _ _ _ hi, getD_drop, Nat.add_comm 1 i]
      rw [hL, hR, pairing, pairing, mul_one] at heq
      -- `heq : (Σ ρ^i·b[i]) · τ = Σ ρ^i·b[i+1]`; compute the difference.
      have hdiff : (∑ i ∈ Finset.range (N - 1), rho ^ i * b.getD i 0) * tau -
          (∑ i ∈ Finset.range (N - 1), rho ^ i * b.getD (i + 1) 0) =
          ∑ i ∈ Finset.range (N - 1), rho ^ i * (tau * b.getD i 0 - b.getD (i + 1) 0) := by
        rw [Finset.sum_mul, ← Finset.sum_sub_distrib]
        exact Finset.sum_congr rfl fun i _ => by ring
      have hzero : ∑ i ∈ Finset.range (N - 1),
          rho ^ i * (tau * b.getD i 0 - b.getD (i + 1) 0) = 0 := by
        rw [← hdiff, heq, sub_self]
      have hterm : ∀ i, i < N - 1 →
          rho ^ i * (tau * b.getD i 0 - b.getD (i + 1) 0) =
            if i = 0 then tau - 1
            else if i = 1 then rho * (tau - tau ^ 2)
            else 0 := by
        intro i hi
        have hgi := mut4_getD tau N i (by omega)
        have hgi1 := mut4_getD tau N (i + 1) (by omega)
        rcases Nat.lt_or_ge i 2 with h2 | h2
        · interval_cases i
          · rw [← hb] at hgi hgi1
            rw [hgi, hgi1]
            norm_num
          · rw [← hb] at hgi hgi1
            rw [hgi, hgi1]
            norm_num
        · rw [← hb] at hgi hgi1
          rw [hgi, hgi1, if_neg (by omega), if_neg (by omega), if_neg (by omega),
            if_neg (by omega)]
          ring
      rcases Nat.lt_or_ge N 3 with h3 | h3
      · -- N = 2: the sum is the single term τ - 1 ≠ 0.
        have hN2 : N - 1 = 1 := by omega
        rw [hN2, Finset.sum_range_one, hterm 0 (by omega), if_pos rfl] at hzero
        exact htau1 (sub_eq_zero.mp hzero)
      · -- N ≥ 3: the sum is (τ - 1)(1 - ρτ) ≠ 0.
        have hsub : ({0, 1} : Finset ℕ) ⊆ Finset.range (N - 1) := by
          intro x hx
          rw [Finset.mem_insert, Finset.mem_singleton] at hx
          rw [Finset.mem_range]
          omega
        have hout : ∀ x ∈ Finset.range (N - 1), x ∉ ({0, 1} : Finset ℕ) →
            rho ^ x * (tau * b.getD x 0 - b.getD (x + 1) 0) = 0 := by
          intro x hx hnx
          rw [Finset.mem_range] at hx
          rw [Finset.mem_insert, Finset.mem_singleton] at hnx
          push_neg at hnx
          rw [hterm x hx, if_neg hnx.1, if_neg hnx.2]
        rw [← Finset.sum_subset hsub hout] at hzero
        rw [Finset.sum_insert (by simp), Finset.sum_singleton] at hzero
        rw [hterm 0 (by omega), hterm 1 (by omega)] at hzero
        norm_num at hzero
        have hfact : (tau - 1) * (1 - rho * tau) = 0 := by
          rw [← hzero]
          ring
        rcases mul_eq_zero.mp hfact with h | h
        · exact htau1 (sub_eq_zero.mp h)
        · exact hrt (sub_eq_zero.mp h).symm
    simp [verifyStructure, hpc]

/-- C6 witness at a concrete instance over `ZMod 13` (τ = 2, N = 3). -/
theorem c6_mutations_fail_witness :
    (2 ≤ 3 ∧ (2 : ZMod 13) ≠ 0 ∧ (2 : ZMod 13) ≠ 1)
    ∧ ((∀ i < 3, checkG1sNonzero (SRS.mk ((powers (2 : ZMod 13) 3).set i 0) (1, 2)) = false
        ∧ ∀ rho : ZMod 13,
            verifyStructure (SRS.mk ((powers (2 : ZMod 13) 3).set i 0) (1, 2)) rho = false)
      ∧ (checkG2Nonzero (SRS.mk (powers (2 : ZMod 13) 3) (1, 0)) = false
        ∧ ∀ rho : ZMod 13, verifyStructure (SRS.mk (powers (2 : ZMod 13) 3) (1, 0)) rho = false)
      ∧ (checkG2NotGen (SRS.mk (powers (2 : ZMod 13) 3) (1, 1)) = false
        ∧ ∀ rho : ZMod 13, verifyStructure (SRS.mk (powers (2 : ZMod 13) 3) (1, 1)) rho = false)
      ∧ (∀ rho : ZMod 13, rho * 2 ≠ 1 →
          verifyStructure (SRS.mk ((powers (2 : ZMod 13) 3).set 1 1) (1, 2)) rho = false)) :=
  ⟨⟨by decide, by decide, by decide⟩,
    c6_mutations_fail (2 : ZMod 13) 3 (by decide) (by decide) (by decide)⟩

end Protocol

/-! ## The proof store (`open_update_proof_dirs`)

Directory entries are pairs of a file name (as a list of ASCII byte values)
and the proof stored in the file.  A name is parseable when it is `proof`
followed by a decimal `usize` (`str::parse::<usize>`: an optional leading
`+`, then one or more ASCII digits, value below `2^64`).  Parseable entries
are sorted by the parsed number (`sort_by_key`, a stable sort, modelled by
the stable insertion sort). -/

/-- The ASCII bytes of the string `proof`. -/
def proofTag : List ℕ := [112, 114, 111, 111, 102]

/-- Whether a byte is an ASCII digit. -/
def isDigitByte (b : ℕ) : Bool := 48 ≤ b && b ≤ 57

/-- Value of a string of ASCII digits. -/
def digitsVal (l : List ℕ) : ℕ := l.foldl (fun acc b => acc * 10 + (b - 48)) 0

/-- Parses a decimal `usize`: optional leading `+` (byte 43), then a nonempty
run of digits, erroring on overflow past `2^64 - 1`. -/
def parseUsizeBytes (l : List ℕ) : Option ℕ :=
  let ds := match l with
    | 43 :: rest => rest
    | _ => l
  if ds ≠ [] ∧ ds.all isDigitByte = true ∧ digitsVal ds < 2 ^ 64 then some (digitsVal ds)
  else none

/-- Strips the `proof` tag from a file name and parses the remaining number
(`file_name.strip_prefix("proof").and_then(parse)`). -/
def parseProofName (name : List ℕ) : Option ℕ :=
  if name.take 5 = proofTag then parseUsizeBytes (name.drop 5) else none

/-- The parseable entries, keyed by their parsed numbers. -/
def keyedEntries {α : Type} (entries : List (List ℕ × α)) : List (ℕ × α) :=
  entries.filterMap fun e => (parseProofName e.1).map fun n => (n, e.2)

/-- Comparison of keyed entries by their numeric key. -/
def proofKeyLE {α : Type} (a b : ℕ × α) : Prop := a.1 ≤ b.1

instance {α : Type} : DecidableRel (proofKeyLE (α := α)) :=
  fun a b => Nat.decLe a.1 b.1

instance {α : Type} : IsTotal (ℕ × α) proofKeyLE :=
  ⟨fun a b => Nat.le_total a.1 b.1⟩

instance {α : Type} : IsTrans (ℕ × α) proofKeyLE :=
  ⟨fun _ _ _ => Nat.le_trans⟩

/-- The stored proofs, ordered by the numeric value parsed from their file
names (ascending, stable). -/
def orderedProofs {α : Type} (entries : List (List ℕ × α)) : List α :=
  ((keyedEntries entries).insertionSort proofKeyLE).map fun ke => ke.2

section ChainVerifier

variable {F : Type} [Field F] [DecidableEq F]
variable (raw : F → List ℕ) (reduceWide : List ℕ → F)

/-- The loop of `verify_chain`: starting from the running point `g`, each
proof must start at `g`, have distinct endpoints, and verify; the running
point advances to its `h`; at the end the running point must be the expected
end point.  `false` models the fatal assert. -/
def verifyChainLoop (endPoint : F) : F → List (UpdateProofS F F) → Bool
  | g, [] => decide (g = endPoint)
  | g, p :: ps =>
      decide (p.g = g) && decide (p.g ≠ p.h) && updateProofVerify raw reduceWide p &&
        verifyChainLoop endPoint p.h ps

/-- `verify_chain`: checks the stored proofs, in numeric file-name order,
against the start and end G₁ points. -/
def verifyChain (startPoint endPoint : F) (entries : List (List ℕ × UpdateProofS F F)) : Bool :=
  verifyChainLoop raw reduceWide endPoint startPoint (orderedProofs entries)

theorem verifyChainLoop_iff (endP : F) (ps : List (UpdateProofS F F)) (g : F) :
    verifyChainLoop raw reduceWide endP g ps = true ↔
      (List.Chain' (fun p q => q.g = p.h) ps
        ∧ (∀ p ∈ ps, p.g ≠ p.h ∧ updateProofVerify raw reduceWide p = true)
        ∧ (ps.head?.elim True fun p => p.g = g)
        ∧ (ps.getLast?.elim g fun p => p.h) = endP) := by
  induction ps generalizing g with
  | nil => simp [verifyChainLoop]
  | cons p ps ih =>
    cases ps with
    | nil =>
      simp only [verifyChainLoop, Bool.and_eq_true, decide_eq_true_eq, ih,
        List.chain'_singleton, List.mem_singleton, List.head?_cons, List.getLast?_singleton,
        Option.elim_some, List.forall_mem_singleton]
      aesop
    | cons q qs =>
      simp only [verifyChainLoop, Bool.and_eq_true, decide_eq_true_eq] at ih ⊢
      rw [ih]
      simp only [List.chain'_cons, List.head?_cons, Option.elim_some,
        List.getLast?_cons_cons, List.mem_cons, forall_eq_or_imp]
      aesop

/-- C5.  (i) The stored proofs are enumerated in ascending order of the
numeric value `n` parsed from their `proof<n>` file names: the sorted keyed
entries are pairwise nondecreasing in the key and are a permutation of the
parseable entries, and the proof list is their value projection.
(ii) In particular `proof10` sorts after `proof2`, the opposite of
lexicographic file-name order.  (iii) `verify_chain` accepts exactly when,
in that order, every proof's `g` continues the running chain started at the
start point, every proof has `g ≠ h` and a verifying Schnorr proof, and the
final running point is the end point; any failing check is fatal. -/
theorem c5_verify_chain (startP endP : F) (entries : List (List ℕ × UpdateProofS F F)) :
    (List.Pairwise proofKeyLE ((keyedEntries entries).insertionSort proofKeyLE)
      ∧ ((keyedEntries entries).insertionSort proofKeyLE).Perm (keyedEntries entries)
      ∧ orderedProofs entries =
          ((keyedEntries entries).insertionSort proofKeyLE).map (fun ke => ke.2))
    ∧ (∀ (p q : UpdateProofS F F),
        orderedProofs [([112, 114, 111, 111, 102, 49, 48], p),
          ([112, 114, 111, 111, 102, 50], q)] = [q, p])
    ∧ (verifyChain raw reduceWide startP endP entries = true ↔
        (List.Chain' (fun p q => q.g = p.h) (orderedProofs entries)
          ∧ (∀ p ∈ orderedProofs entries,
              p.g ≠ p.h ∧ updateProofVerify raw reduceWide p = true)
          ∧ ((orderedProofs entries).head?.elim True fun p => p.g = startP)
          ∧ ((orderedProofs entries).getLast?.elim startP fun p => p.h) = endP)) := by
  refine ⟨⟨List.sorted_insertionSort proofKeyLE _, List.perm_insertionSort proofKeyLE _, rfl⟩,
    fun p q => rfl, ?_⟩
  exact verifyChainLoop_iff raw reduceWide endP (orderedProofs entries) startP

/-! ## The update command (`update` in `main.rs`) -/

/-- The update command: it reads the SRS, asserts that the SRS's `g1s[1]`
equals the `h` of the numerically last stored proof (panicking if there is no
parseable proof at all, via `.last().unwrap()`), and only then updates the
SRS and writes the new SRS and proof files.  `none` models a panic, in which
case nothing is written. -/
def updateCmd (r nu : F) (entries : List (List ℕ × UpdateProofS F F)) (srs : SRS F F) :
    Option (SRS F F × UpdateProofS F F) :=
  match (orderedProofs entries).getLast? with
  | none => none
  | some lastp =>
      if srs.g1s.getD 1 0 = lastp.h then some (srsUpdate raw reduceWide r srs nu) else none

/-- C9.  The update command panics — producing no new SRS and no new proof —
exactly when the proof directory holds no parseable proof at all, or the
input SRS's `g1s[1]` differs from the `h` point of the numerically last
stored proof; in particular a first contribution with an empty proof store
is impossible through this code path. -/
theorem c9_update_precondition (r nu : F) (entries : List (List ℕ × UpdateProofS F F))
    (srs : SRS F F) :
    (updateCmd raw reduceWide r nu entries srs = none ↔
      (orderedProofs entries = []
        ∨ ∃ lastp, (orderedProofs entries).getLast? = some lastp
            ∧ srs.g1s.getD 1 0 ≠ lastp.h))
    ∧ updateCmd raw reduceWide r nu [] srs = none := by
  constructor
  · cases h : (orderedProofs entries).getLast? with
    | none =>
      simp only [updateCmd, h]
      simp [List.getLast?_eq_none_iff.mp h]
    | some lastp =>
      have hne : orderedProofs entries ≠ [] := by
        intro hnil
        rw [hnil] at h
        exact Option.noConfusion h
      simp only [updateCmd, h]
      by_cases hmatch : srs.g1s.getD 1 0 = lastp.h
      · simp [hmatch, hne]
      · simp only [if_neg hmatch, true_iff]
        exact Or.inr ⟨lastp, rfl, hmatch⟩
  · rfl

/-! ## The Drand verifier's final contribution check -/

/-- The tail of the Drand verifier's `main`: with the beacon-derived scalar in
hand, it requires at least two stored update proofs (exiting with status 1
otherwise, before reading any proof), then loads the numerically last proof
and accepts exactly when scaling its `g` by the scalar yields its `h`.
`false` models `exit(1)`. -/
def drandLastCheck (entries : List (List ℕ × UpdateProofS F F)) (scalar : F) : Bool :=
  let updateProofList := orderedProofs entries
  if updateProofList.length < 2 then false
  else
    match updateProofList.getLast? with
    | none => false
    | some lastProof => decide (lastProof.g * scalar = lastProof.h)

/-- C10.  The Drand verifier's final check succeeds exactly when at least two
stored proofs parse from the proof directory and the numerically last proof
satisfies `last.g · ν = last.h`; with fewer than two parseable proofs it
exits nonzero for every scalar, without consulting the endpoint equation. -/
theorem c10_drand_needs_two_proofs (entries : List (List ℕ × UpdateProofS F F)) (scalar : F) :
    drandLastCheck entries scalar = true ↔
      (2 ≤ (orderedProofs entries).length
        ∧ ∃ p, (orderedProofs entries).getLast? = some p ∧ p.g * scalar = p.h) := by
  by_cases hlen : (orderedProofs entries).length < 2
  · simp only [drandLastCheck, if_pos hlen]
    constructor
    · intro h
      exact absurd h (by simp)
    · intro h
      omega
  · push_neg at hlen
    cases h : (orderedProofs entries).getLast? with
    | none =>
      have : orderedProofs entries = [] := List.getLast?_eq_none_iff.mp h
      rw [this] at hlen
      simp at hlen
    | some lastProof =>
      have hcond : ¬((orderedProofs entries).length < 2) := by omega
      simp only [drandLastCheck, if_neg hcond, h, decide_eq_true_eq]
      constructor
      · intro heq
        exact ⟨hlen, lastProof, rfl, heq⟩
      · rintro ⟨-, p, hp, heq⟩
        have hpl : lastProof = p := Option.some.inj hp
        rwa [hpl]

end ChainVerifier

/-! ## Dual-basis consistency (`ExtendedSRS::check_consistency`)

The source samples a random polynomial, commits to it against the monomial
basis, applies the library's in-place radix-2 NTT (`best_fft`, modelled by
its contract: evaluation at the powers of `ω`) with
`ω = ROOT_OF_UNITY^(2^(S-k))` — a primitive `2^k`-th root of unity, carried
here as a parameter with its defining property — and commits the result
against the Lagrange basis, asserting both commitments agree. -/

section DualBasis

variable {F : Type} [Field F] [DecidableEq F]

/-- The discrete Fourier transform: entry `j` of the result is
`Σ_i coeffs[i] · ω^(i·j)`, the evaluation of the polynomial at `ω^j`.  This
models the library's `best_fft` by its contract. -/
def dft (ω : F) (coeffs : List F) : List F :=
  (List.range coeffs.length).map fun j =>
    ∑ i ∈ Finset.range coeffs.length, coeffs.getD i 0 * ω ^ (i * j)

/-- `check_consistency`: commit the sampled coefficients against the monomial
basis, NTT them, commit against the Lagrange basis, and compare.  The sampled
coefficients are a parameter; `false` models the fatal assert. -/
def checkConsistency (ω : F) (esrs : ExtendedSRS F F) (coeffs : List F) : Bool :=
  decide (msm coeffs esrs.g1sCoeff = msm (dft ω coeffs) esrs.g1sLagrange)

theorem root_orthogonality (ω : F) (N : ℕ) (hω1 : ω ^ N = 1)
    (hωprim : ∀ m < N, 0 < m → ω ^ m ≠ 1) (hN1 : 1 ≤ N) (k j : ℕ) (hk : k < N)
    (hj : j < N) :
    ∑ i ∈ Finset.range N, ω ^ (k * i) * (ω ^ (i * j))⁻¹ =
      if k = j then (N : F) else 0 := by
  have hω0 : ω ≠ 0 := by
    intro h0
    rw [h0, zero_pow (by omega)] at hω1
    exact zero_ne_one hω1
  have hterm : ∀ i : ℕ, ω ^ (k * i) * (ω ^ (i * j))⁻¹ = (ω ^ k * (ω ^ j)⁻¹) ^ i := by
    intro i
    rw [mul_pow, inv_pow, ← pow_mul, ← pow_mul, Nat.mul_comm j i]
  by_cases hkj : k = j
  · subst hkj
    rw [if_pos rfl, Finset.sum_congr rfl fun i _ => hterm i]
    have hx1 : ω ^ k * (ω ^ k)⁻¹ = 1 := mul_inv_cancel₀ (pow_ne_zero _ hω0)
    rw [hx1]
    simp
  · rw [if_neg hkj, Finset.sum_congr rfl fun i _ => hterm i]
    set x : F := ω ^ k * (ω ^ j)⁻¹ with hx
    have hxN : x ^ N = 1 := by
      rw [hx, mul_pow, inv_pow, ← pow_mul, ← pow_mul, Nat.mul_comm k N, Nat.mul_comm j N,
        pow_mul, pow_mul, hω1, one_pow, one_pow, inv_one, mul_one]
    have hxne1 : x ≠ 1 := by
      intro hx1
      rw [hx, mul_inv_eq_one₀ (pow_ne_zero _ hω0)] at hx1
      rcases Nat.lt_or_ge k j with hlt | hge
      · have hsplit : ω ^ j = ω ^ k * ω ^ (j - k) := by
          rw [← pow_add]
          congr 1
          omega
        have hcancel : ω ^ (j - k) = 1 := by
          apply mul_left_cancel₀ (pow_ne_zero k hω0)
          rw [← hsplit, mul_one, hx1]
        exact hωprim (j - k) (by omega) (by omega) hcancel
      · have hgt : j < k := by omega
        have hsplit : ω ^ k = ω ^ j * ω ^ (k - j) := by
          rw [← pow_add]
          congr 1
          omega
        have hcancel : ω ^ (k - j) = 1 := by
          apply mul_left_cancel₀ (pow_ne_zero j hω0)
          rw [← hsplit, mul_one, hx1]
        exact hωprim (k - j) (by omega) (by omega) hcancel
    have hgeom : (∑ i ∈ Finset.range N, x ^ i) * (x - 1) = x ^ N - 1 := geom_sum_mul x N
    rw [hxN, sub_self] at hgeom
    rcases mul_eq_zero.mp hgeom with h | h
    · exact h
    · exact absurd h (sub_ne_zero.mpr hxne1)

/-- C7.  For an extended SRS whose Lagrange G₁ points are derived from the
monomial G₁ points by the inverse transform at a primitive `N`-th root of
unity `ω` (with inverse `ωinv`), i.e. `Λ_i = [L_i(τ)]₁` when `M_j = [τ^j]₁`,
the monomial-basis commitment of any sampled coefficient vector equals the
Lagrange-basis commitment of its radix-2 NTT, so `check_consistency`
succeeds. -/
theorem c7_check_consistency_succeeds (ω ωinv : F) (esrs : ExtendedSRS F F) (coeffs : List F)
    (N : ℕ) (hM : esrs.g1sCoeff.length = N) (hL : esrs.g1sLagrange.length = N)
    (hc : coeffs.length = N) (hω1 : ω ^ N = 1)
    (hωprim : ∀ m < N, 0 < m → ω ^ m ≠ 1) (hNF : (N : F) ≠ 0)
    (hinv : ω * ωinv = 1)
    (hlagmul : ∀ i < N, (N : F) * esrs.g1sLagrange.getD i 0 =
      ∑ j ∈ Finset.range N, ωinv ^ (i * j) * esrs.g1sCoeff.getD j 0) :
    checkConsistency ω esrs coeffs = true := by
  have hN1 : 1 ≤ N := by
    rcases Nat.eq_zero_or_pos N with h0 | h
    · rw [h0] at hNF
      simp at hNF
    · exact h
  have hωinv : ωinv = ω⁻¹ := (inv_eq_of_mul_eq_one_right hinv).symm
  have hlag : ∀ i < N, esrs.g1sLagrange.getD i 0 =
      (N : F)⁻¹ * ∑ j ∈ Finset.range N, (ω ^ (i * j))⁻¹ * esrs.g1sCoeff.getD j 0 := by
    intro i hi
    have h1 : esrs.g1sLagrange.getD i 0 =
        (N : F)⁻¹ * ((N : F) * esrs.g1sLagrange.getD i 0) := by
      rw [← mul_assoc, inv_mul_cancel₀ hNF, one_mul]
    rw [h1, hlagmul i hi]
    refine congrArg _ (Finset.sum_congr rfl fun j _ => ?_)
    rw [hωinv, inv_pow]
  unfold checkConsistency
  apply decide_eq_true
  have hLHS : msm coeffs esrs.g1sCoeff =
      ∑ k ∈ Finset.range N, coeffs.getD k 0 * esrs.g1sCoeff.getD k 0 := by
    rw [msm_eq_sum, hc, hM, Nat.min_self]
  have hdft : ∀ i < N, (dft ω coeffs).getD i 0 =
      ∑ k ∈ Finset.range N, coeffs.getD k 0 * ω ^ (k * i) := by
    intro i hi
    rw [dft, hc, List.getD_eq_getElem _ _ (by simpa using hi)]
    simp
  have hdftlen : (dft ω coeffs).length = N := by
    simp [dft, hc]
  have hRHS : msm (dft ω coeffs) esrs.g1sLagrange =
      ∑ i ∈ Finset.range N, (dft ω coeffs).getD i 0 * esrs.g1sLagrange.getD i 0 := by
    rw [msm_eq_sum, hdftlen, hL, Nat.min_self]
  rw [hLHS, hRHS]
  have hstep1 : ∑ i ∈ Finset.range N, (dft ω coeffs).getD i 0 * esrs.g1sLagrange.getD i 0 =
      ∑ i ∈ Finset.range N, (N : F)⁻¹ *
        ∑ k ∈ Finset.range N, ∑ j ∈ Finset.range N,
          coeffs.getD k 0 * esrs.g1sCoeff.getD j 0 * (ω ^ (k * i) * (ω ^ (i * j))⁻¹) := by
    refine Finset.sum_congr rfl fun i hi => ?_
    rw [Finset.mem_range] at hi
    rw [hdft i hi, hlag i hi, mul_left_comm, Finset.sum_mul_sum]
    refine congrArg _ ?_
    refine Finset.sum_congr rfl fun k _ => Finset.sum_congr rfl fun j _ => ?_
    ring
  rw [hstep1, ← Finset.mul_sum]
  rw [Finset.sum_comm]
  have hstep2 : ∀ k ∈ Finset.range N,
      (∑ i ∈ Finset.range N, ∑ j ∈ Finset.range N,
        coeffs.getD k 0 * esrs.g1sCoeff.getD j 0 * (ω ^ (k * i) * (ω ^ (i * j))⁻¹)) =
      coeffs.getD k 0 * esrs.g1sCoeff.getD k 0 * (N : F) := by
    intro k hk
    rw [Finset.mem_range] at hk
    rw [Finset.sum_comm]
    have hinner : ∀ j ∈ Finset.range N,
        (∑ i ∈ Finset.range N,
          coeffs.getD k 0 * esrs.g1sCoeff.getD j 0 * (ω ^ (k * i) * (ω ^ (i * j))⁻¹)) =
        if k = j then coeffs.getD k 0 * esrs.g1sCoeff.getD j 0 * (N : F) else 0 := by
      intro j hj
      rw [Finset.mem_range] at hj
      rw [← Finset.mul_sum, root_orthogonality ω N hω1 hωprim hN1 k j hk hj]
      split_ifs with hkj
      · rfl
      · rw [mul_zero]
    rw [Finset.sum_congr rfl hinner, Finset.sum_ite_eq (Finset.range N) k
      (fun j => coeffs.getD k 0 * esrs.g1sCoeff.getD j 0 * (N : F)), if_pos (by
        rw [Finset.mem_range]
        exact hk)]
  rw [Finset.sum_congr rfl hstep2, ← Finset.sum_mul, mul_comm ((N : F)⁻¹),
    mul_assoc, mul_inv_cancel₀ hNF, mul_one]

/-- A concrete extended SRS over `ZMod 13`: τ = 2, N = 4, ω = 5. -/
def esrsW7 : ExtendedSRS (ZMod 13) (ZMod 13) :=
  ⟨[1, 2, 4, 8], [7, 10, 2, 8], (1, 2), 2⟩

/-- C7 witness at a concrete instance over `ZMod 13`. -/
theorem c7_check_consistency_succeeds_witness :
    (esrsW7.g1sCoeff.length = 4 ∧ esrsW7.g1sLagrange.length = 4
      ∧ ([1, 2, 3, 4] : List (ZMod 13)).length = 4
      ∧ (5 : ZMod 13) ^ 4 = 1
      ∧ (∀ m < 4, 0 < m → (5 : ZMod 13) ^ m ≠ 1)
      ∧ ((4 : ℕ) : ZMod 13) ≠ 0
      ∧ (5 : ZMod 13) * 8 = 1
      ∧ (∀ i < 4, ((4 : ℕ) : ZMod 13) * esrsW7.g1sLagrange.getD i 0 =
          ∑ j ∈ Finset.range 4, (8 : ZMod 13) ^ (i * j) * esrsW7.g1sCoeff.getD j 0))
    ∧ checkConsistency 5 esrsW7 [1, 2, 3, 4] = true :=
  ⟨⟨by decide, by decide, by decide, by decide, by decide, by decide, by decide, by decide⟩,
    c7_check_consistency_succeeds 5 8 esrsW7 [1, 2, 3, 4] 4 (by decide) (by decide) (by decide)
      (by decide) (by decide) (by decide) (by decide) (by decide)⟩

end DualBasis

/-! ## Serialization (`SRS::write_to_file`/`read_from_file`,
`UpdateProof::write_to_file`/`read_from_file`)

The scalar is serialized concretely: 32 big-endian bytes of the canonical
residue modulo the BLS12-381 scalar-field order (`to_bytes_be` /
`from_bytes_be`, the latter rejecting non-canonical values).  The raw
uncompressed G₁ (96-byte) and G₂ (192-byte) point encodings belong to the
curve library and are abstract codecs, carried with their contract. -/

/-- The order of the BLS12-381 scalar field `Fr`. -/
def blsScalarOrder : ℕ :=
  52435875175126190479447740508185965837690552500527637822603658699938581184513

instance : NeZero blsScalarOrder := ⟨by decide⟩

/-- The BLS12-381 scalar field, as integers modulo its order. -/
abbrev Fr := ZMod blsScalarOrder

/-- Big-endian base-256 digits of `v`, `w` bytes wide. -/
def natBEBytes : ℕ → ℕ → List ℕ
  | 0, _ => []
  | w + 1, v => natBEBytes w (v / 256) ++ [v % 256]

/-- Recombines big-endian base-256 digits. -/
def bytesToNatBE (l : List ℕ) : ℕ := l.foldl (fun acc b => acc * 256 + b) 0

/-- `Scalar::to_bytes_be`: the 32 big-endian bytes of the canonical residue. -/
def scalarToBytesBE (s : Fr) : List ℕ := natBEBytes 32 s.val

/-- `Scalar::from_bytes_be`: succeeds only on canonical (reduced) values. -/
def scalarFromBytesBE (l : List ℕ) : Option Fr :=
  if bytesToNatBE l < blsScalarOrder then some ((bytesToNatBE l : ℕ) : Fr) else none

theorem natBEBytes_length (w v : ℕ) : (natBEBytes w v).length = w := by
  induction w generalizing v with
  | zero => rfl
  | succ w ih => simp [natBEBytes, ih]

theorem bytesToNatBE_natBEBytes (w v : ℕ) : bytesToNatBE (natBEBytes w v) = v % 256 ^ w := by
  induction w generalizing v with
  | zero => simp [natBEBytes, bytesToNatBE, Nat.mod_one]
  | succ w ih =>
    show bytesToNatBE (natBEBytes w (v / 256) ++ [v % 256]) = v % 256 ^ (w + 1)
    rw [bytesToNatBE, List.foldl_append]
    rw [show List.foldl (fun acc b => acc * 256 + b)
      (List.foldl (fun acc b => acc * 256 + b) 0 (natBEBytes w (v / 256))) [v % 256] =
      bytesToNatBE (natBEBytes w (v / 256)) * 256 + v % 256 from rfl]
    rw [ih]
    have hpow : (256 : ℕ) ^ (w + 1) = 256 * 256 ^ w := by ring
    rw [hpow, Nat.mod_mul]
    omega

theorem scalar_roundtrip (s : Fr) : scalarFromBytesBE (scalarToBytesBE s) = some s := by
  unfold scalarFromBytesBE scalarToBytesBE
  rw [bytesToNatBE_natBEBytes]
  have hval : s.val < blsScalarOrder := ZMod.val_lt s
  have hord : blsScalarOrder < 256 ^ 32 := by decide
  rw [Nat.mod_eq_of_lt (lt_trans hval hord), if_pos hval]
  exact congrArg some (ZMod.natCast_rightInverse s)

section Serialization

variable {P Q : Type}
variable (g1ToBytes : P → List ℕ) (g1FromBytes : List ℕ → Option P)
variable (g2ToBytes : Q → List ℕ) (g2FromBytes : List ℕ → Option Q)

/-- `SRS::write_to_file`: the raw bytes of every G₁ point in order, then the
raw bytes of the two G₂ points. -/
def srsToBytes (srs : SRS P Q) : List ℕ :=
  (srs.g1s.map g1ToBytes).flatten ++ (g2ToBytes srs.g2s.1 ++ g2ToBytes srs.g2s.2)

/-- Splits a byte string into chunks of (at most) 96 bytes (`par_chunks`). -/
def chunks96 (l : List ℕ) : List (List ℕ) :=
  if hne : l = [] then [] else l.take 96 :: chunks96 (l.drop 96)
termination_by l.length
decreasing_by
  simp only [List.length_drop]
  have : l.length ≠ 0 := fun h => hne (List.eq_nil_of_length_eq_zero h)
  omega

/-- Parses every chunk as a G₁ point, failing if any chunk fails
(`read_g1_point` panics). -/
def parseG1Points : List (List ℕ) → Option (List P)
  | [] => some []
  | c :: cs =>
      match g1FromBytes c, parseG1Points cs with
      | some p, some ps => some (p :: ps)
      | _, _ => none

/-- `SRS::read_from_file`: everything but the trailing `2 · 192` bytes is
parsed as 96-byte G₁ chunks; the tail holds the two G₂ points. -/
def srsFromBytes (bytes : List ℕ) : Option (SRS P Q) :=
  match parseG1Points g1FromBytes (chunks96 (bytes.take (bytes.length - 2 * 192))),
      g2FromBytes ((bytes.drop (bytes.length - 2 * 192)).take 192),
      g2FromBytes ((bytes.drop (bytes.length - 2 * 192 + 192)).take 192) with
  | some g1s, some q0, some q1 => some ⟨g1s, (q0, q1)⟩
  | _, _, _ => none

/-- `UpdateProof::write_to_file`: `a` (96 raw bytes), `z` (32 big-endian
bytes), `g` (96 bytes), `h` (96 bytes) — 320 bytes in total. -/
def updateProofToBytes (pf : UpdateProofS P Fr) : List ℕ :=
  g1ToBytes pf.π.a ++ scalarToBytesBE pf.π.z ++ g1ToBytes pf.g ++ g1ToBytes pf.h

/-- `read_exact` into a `k`-byte buffer: fails when fewer bytes remain. -/
def readChunk (k : ℕ) (bytes : List ℕ) : Option (List ℕ × List ℕ) :=
  if k ≤ bytes.length then some (bytes.take k, bytes.drop k) else none

/-- `UpdateProof::read_from_file`: sequential reads of `a`, `z`, `g`, `h`. -/
def updateProofFromBytes (bytes : List ℕ) : Option (UpdateProofS P Fr) :=
  match readChunk 96 bytes with
  | none => none
  | some (ab, r1) =>
      match g1FromBytes ab with
      | none => none
      | some a =>
          match readChunk 32 r1 with
          | none => none
          | some (zb, r2) =>
              match scalarFromBytesBE zb with
              | none => none
              | some z =>
                  match readChunk 96 r2 with
                  | none => none
                  | some (gb, r3) =>
                      match g1FromBytes gb with
                      | none => none
                      | some g =>
                          match readChunk 96 r3 with
                          | none => none
                          | some (hb, _) =>
                              match g1FromBytes hb with
                              | none => none
                              | some h => some ⟨g, h, ⟨a, z⟩⟩

theorem flatten_length_96 (ls : List (List ℕ)) (h : ∀ l ∈ ls, l.length = 96) :
    ls.flatten.length = 96 * ls.length := by
  induction ls with
  | nil => simp
  | cons l ls ih =>
    rw [List.flatten_cons, List.length_append, h l (by simp),
      ih fun x hx => h x (by simp [hx]), List.length_cons]
    ring

theorem chunks96_flatten (ls : List (List ℕ)) (h : ∀ l ∈ ls, l.length = 96) :
    chunks96 ls.flatten = ls := by
  induction ls with
  | nil => rw [List.flatten_nil, chunks96]; simp
  | cons l ls ih =>
    rw [List.flatten_cons, chunks96]
    have hl : l.length = 96 := h l (by simp)
    have hlne : l ++ ls.flatten ≠ [] := by
      intro hnil
      have := congrArg List.length hnil
      simp [hl] at this
    rw [dif_neg hlne, List.take_left' hl, List.drop_left' hl,
      ih fun x hx => h x (by simp [hx])]

theorem parseG1Points_map (hg1rt : ∀ p : P, g1FromBytes (g1ToBytes p) = some p)
    (ps : List P) : parseG1Points g1FromBytes (ps.map g1ToBytes) = some ps := by
  induction ps with
  | nil => rfl
  | cons p ps ih => simp [parseG1Points, hg1rt p, ih]

/-- C8.  Writing an SRS and reading the bytes back yields the same SRS (same
G₁ sequence, same G₂ pair); writing an update proof and reading it back
yields the same proof (same `(a, z)` and endpoints `g`, `h`); the proof
serializes to `96 + 32 + 96 + 96 = 320` bytes with `z` as 32 big-endian
bytes — given the curve library's codec contract (96-byte raw G₁,
192-byte raw G₂, bit-for-bit round-trip). -/
theorem c8_serialization_roundtrip
    (hg1len : ∀ p : P, (g1ToBytes p).length = 96)
    (hg1rt : ∀ p : P, g1FromBytes (g1ToBytes p) = some p)
    (hg2len : ∀ q : Q, (g2ToBytes q).length = 192)
    (hg2rt : ∀ q : Q, g2FromBytes (g2ToBytes q) = some q)
    (srs : SRS P Q) (pf : UpdateProofS P Fr) :
    srsFromBytes g1FromBytes g2FromBytes (srsToBytes g1ToBytes g2ToBytes srs) = some srs
    ∧ updateProofFromBytes g1FromBytes (updateProofToBytes g1ToBytes pf) = some pf
    ∧ (updateProofToBytes g1ToBytes pf).length = 320
    ∧ (scalarToBytesBE pf.π.z).length = 32 := by
  obtain ⟨g1s, q0, q1⟩ := srs
  obtain ⟨g, h, a, z⟩ := pf
  have hmaplen : ∀ l ∈ g1s.map g1ToBytes, l.length = 96 := by
    intro l hl
    rw [List.mem_map] at hl
    obtain ⟨p, -, hp⟩ := hl
    rw [← hp]
    exact hg1len p
  have hflatlen : (g1s.map g1ToBytes).flatten.length = 96 * g1s.length := by
    rw [flatten_length_96 _ hmaplen, List.length_map]
  constructor
  · -- the SRS round-trip
    unfold srsFromBytes srsToBytes
    dsimp only
    have hblen : ((g1s.map g1ToBytes).flatten ++ (g2ToBytes q0 ++ g2ToBytes q1)).length =
        96 * g1s.length + 384 := by
      rw [List.length_append, List.length_append, hflatlen, hg2len q0, hg2len q1]
    rw [hblen]
    have hoffset : 96 * g1s.length + 384 - 2 * 192 = (g1s.map g1ToBytes).flatten.length := by
      rw [hflatlen]
      omega
    rw [hoffset, List.take_left, List.drop_left]
    rw [List.take_left' (hg2len q0)]
    have hdrop2 : ((g1s.map g1ToBytes).flatten ++ (g2ToBytes q0 ++ g2ToBytes q1)).drop
        ((g1s.map g1ToBytes).flatten.length + 192) = g2ToBytes q1 := by
      rw [← List.append_assoc, List.drop_left' (by
        rw [List.length_append, hg2len q0])]
    rw [hdrop2, List.take_of_length_le (by rw [hg2len q1])]
    rw [chunks96_flatten _ hmaplen, parseG1Points_map g1ToBytes g1FromBytes hg1rt,
      hg2rt q0, hg2rt q1]
  refine ⟨?_, ?_, natBEBytes_length 32 _⟩
  · -- the update proof round-trip
    have hassoc : updateProofToBytes g1ToBytes ⟨g, h, a, z⟩ =
        g1ToBytes a ++ (scalarToBytesBE z ++ (g1ToBytes g ++ g1ToBytes h)) := by
      simp [updateProofToBytes, List.append_assoc]
    have hr1 : readChunk 96 (g1ToBytes a ++ (scalarToBytesBE z ++ (g1ToBytes g ++ g1ToBytes h)))
        = some (g1ToBytes a, scalarToBytesBE z ++ (g1ToBytes g ++ g1ToBytes h)) := by
      unfold readChunk
      rw [if_pos (by
        rw [List.length_append, hg1len a]
        omega)]
      rw [List.take_left' (hg1len a), List.drop_left' (hg1len a)]
    have hr2 : readChunk 32 (scalarToBytesBE z ++ (g1ToBytes g ++ g1ToBytes h))
        = some (scalarToBytesBE z, g1ToBytes g ++ g1ToBytes h) := by
      unfold readChunk
      have hzlen : (scalarToBytesBE z).length = 32 := natBEBytes_length 32 _
      rw [if_pos (by
        rw [List.length_append, hzlen]
        omega)]
      rw [List.take_left' hzlen, List.drop_left' hzlen]
    have hr3 : readChunk 96 (g1ToBytes g ++ g1ToBytes h)
        = some (g1ToBytes g, g1ToBytes h) := by
      unfold readChunk
      rw [if_pos (by
        rw [List.length_append, hg1len g]
        omega)]
      rw [List.take_left' (hg1len g), List.drop_left' (hg1len g)]
    have hr4 : readChunk 96 (g1ToBytes h) = some (g1ToBytes h, []) := by
      unfold readChunk
      rw [if_pos (by rw [hg1len h])]
      rw [List.take_of_length_le (by rw [hg1len h]), List.drop_of_length_le (by rw [hg1len h])]
    rw [hassoc]
    simp only [updateProofFromBytes, hr1, hr2, hr3, hr4, hg1rt, scalar_roundtrip]
  · -- the length
    simp [updateProofToBytes, hg1len, natBEBytes_length, scalarToBytesBE]

end Serialization

set_option maxRecDepth 4000 in
/-- C8 witness: a toy codec satisfying the library contract (first byte is
the point, zero padding), a concrete SRS and a concrete update proof. -/
theorem c8_serialization_roundtrip_witness :
    ((∀ p : ℕ, ((fun n => n :: List.replicate 95 0) p).length = 96)
      ∧ (∀ p : ℕ, (fun l => some (l.getD 0 0)) ((fun n => n :: List.replicate 95 0) p) = some p)
      ∧ (∀ q : ℕ, ((fun n => n :: List.replicate 191 0) q).length = 192)
      ∧ (∀ q : ℕ, (fun l => some (l.getD 0 0)) ((fun n => n :: List.replicate 191 0) q) = some q))
    ∧ (srsFromBytes (fun l => some (l.getD 0 0)) (fun l => some (l.getD 0 0))
          (srsToBytes (fun n => n :: List.replicate 95 0) (fun n => n :: List.replicate 191 0)
            (SRS.mk [3, 4] ((7 : ℕ), (8 : ℕ)))) = some (SRS.mk [3, 4] ((7 : ℕ), (8 : ℕ)))
      ∧ updateProofFromBytes (fun l => some (l.getD 0 0))
          (updateProofToBytes (fun n => n :: List.replicate 95 0)
            (UpdateProofS.mk (1 : ℕ) 2 ⟨5, (6 : Fr)⟩)) =
          some (UpdateProofS.mk (1 : ℕ) 2 ⟨5, (6 : Fr)⟩)
      ∧ (updateProofToBytes (fun n => n :: List.replicate 95 0)
          (UpdateProofS.mk (1 : ℕ) 2 ⟨5, (6 : Fr)⟩)).length = 320
      ∧ (scalarToBytesBE (UpdateProofS.mk (1 : ℕ) 2 ⟨5, (6 : Fr)⟩).π.z).length = 32) :=
  ⟨⟨fun p => by simp, fun p => by simp, fun q => by simp, fun q => by simp⟩,
    c8_serialization_roundtrip (fun n => n :: List.replicate 95 0) (fun l => some (l.getD 0 0))
      (fun n => n :: List.replicate 191 0) (fun l => some (l.getD 0 0))
      (fun p => by simp) (fun p => by simp) (fun q => by simp) (fun q => by simp)
      (SRS.mk [3, 4] ((7 : ℕ), (8 : ℕ))) (UpdateProofS.mk (1 : ℕ) 2 ⟨5, (6 : Fr)⟩)⟩

end Midnight
